import Mathlib

/-!
Verification of the generational reference-counting core of the `genref`
repository. The definitions below are a shallow embedding of the canonical
variant of the code (`src/lib.rs`, `src/counter.rs`), together with the
free-list allocator variant (`src/allocator.rs`, `src/generations.rs`) where
the claims refer to it. Machine integers are modelled as `Nat`/`Int` with
explicit wrapping where the source wraps.
-/

namespace Genref

/-- Modulus of the `u32` generation-count field of `RawLocalCounter`. -/
def u32Lim : Nat := 4294967296

/-- Largest representable `u32` value. -/
def u32Max : Nat := 4294967295

/-- Embedding of `RawLocalCounter::bump` (src/counter.rs): a wrapping
increment of the count, skipped entirely when the count is already `0`
(the retired sentinel), so a counter at `0` stays at `0` forever. -/
def bump (n : Nat) : Nat := if n = 0 then 0 else (n + 1) % u32Lim

/-- Iterated `bump`: the count after `k` further deallocation events. -/
def bumpIter (k : Nat) (n : Nat) : Nat := Nat.iterate bump k n

/-- Embedding of `Weak::is_valid` (src/lib.rs): the weak handle's cached
stamp (`RawRef::validity`) compared against the live count. -/
def isValid (cached live : Nat) : Bool := cached == live

/-- Embedding of `<LocalGeneration as Generation>::free` (src/counter.rs):
the counter is pushed onto the thread-local free list unless its count is
`0`; at `0` it is intentionally leaked. Returns the updated free list,
with counters represented by their current count. -/
def localGenerationFree (count : Nat) (freeList : List Nat) : List Nat :=
  if count ≠ 0 then count :: freeList else freeList

/-!
Lock state of `RawLocalCounter` (src/counter.rs): a single `i32` cell,
`0` = unlocked, `-1` = exclusively held, positive = two times the number of
ordinary shared holders plus an upgradable-holder bit in bit zero. Each
`try_*` operation returns its success flag together with the new cell
value; each `unlock_*` returns the new cell value.
-/

/-- Embedding of `RawLocalCounter::try_lock_shared`. -/
def tryLockShared (a : Int) : Bool × Int :=
  if 0 ≤ a then (true, a + 2) else (false, a)

/-- Embedding of `RawLocalCounter::try_lock_exclusive`. -/
def tryLockExclusive (a : Int) : Bool × Int :=
  if a = 0 then (true, -1) else (false, a)

/-- Embedding of `RawLocalCounter::try_lock_upgradable`: succeeds when bit
zero of the cell is clear and sets it. -/
def tryLockUpgradable (a : Int) : Bool × Int :=
  if Int.land a 1 = 0 then (true, Int.lor a 1) else (false, a)

/-- Embedding of `RawLocalCounter::try_upgrade`: succeeds only from cell
value `1` (upgradable holder and no ordinary shared holders). -/
def tryUpgrade (a : Int) : Bool × Int :=
  if a = 1 then (true, -1) else (false, a)

/-- Embedding of `RawLocalCounter::try_shared_into_exclusive`: succeeds
only from cell value `2` (exactly one ordinary shared holder). -/
def trySharedIntoExclusive (a : Int) : Bool × Int :=
  if a = 2 then (true, -1) else (false, a)

/-- Embedding of `RawLocalCounter::unlock_shared`: unconditionally
subtracts one shared unit from the cell. -/
def unlockShared (a : Int) : Int := a - 2

/-- Embedding of `RawLocalCounter::unlock_exclusive`: unconditionally
resets the cell to `0`. -/
def unlockExclusive (_ : Int) : Int := 0

/-- Embedding of `RawLocalCounter::unlock_upgradable`: clears bit zero of
the cell (`access & !1`, with `!1 = -2` on `i32`). -/
def unlockUpgradable (a : Int) : Int := Int.land a (-2)

/-- Embedding of `RawLocalCounter::downgrade`: unconditionally sets the
cell to `2` (one ordinary shared holder). -/
def downgradeLock (_ : Int) : Int := 2

/-!
The decoded lock state (`enum AccessState` in src/counter.rs) and the
shared reader-writer lock it is replayed onto during promotion.
-/

/-- Embedding of `enum AccessState` (src/counter.rs). The constructor
called `None` in the source is named `idle` here. -/
inductive AccessState
  | readers (normal : Nat) (upgrade : Bool)
  | writer
  | idle
deriving DecidableEq

/-- Embedding of `AccessState::new` (src/counter.rs): decodes the `i32`
lock cell; a cell below `-1` is a protocol violation (the source panics),
modelled as `Option.none`. -/
def accessStateNew (a : Int) : Option AccessState :=
  if 1 ≤ a then some (.readers (a.toNat / 2) (Int.land a 1 == 1))
  else if a = 0 then some .idle
  else if a = -1 then some .writer
  else none

/-- State of a `parking_lot::RawRwLock`, modelled from that external
crate's documented interface: some number of shared holders, at most one
upgradable holder, at most one exclusive holder; shared and upgradable
holders coexist, the exclusive holder excludes everything else. -/
structure RwState where
  sh : Nat
  upg : Bool
  ex : Bool
deriving DecidableEq

/-- Fresh, unlocked reader-writer lock (`RawRwLock::INIT`). -/
def rwInit : RwState := ⟨0, false, false⟩

/-- Model of `RawRwLock::try_lock_shared`: fails only against an exclusive
holder. -/
def rwTryLockShared (s : RwState) : Bool × RwState :=
  if s.ex then (false, s) else (true, { s with sh := s.sh + 1 })

/-- Model of `RawRwLock::try_lock_exclusive`: fails against any other
holder. -/
def rwTryLockExclusive (s : RwState) : Bool × RwState :=
  if s.sh = 0 ∧ s.upg = false ∧ s.ex = false then (true, { s with ex := true })
  else (false, s)

/-- Model of `RawRwLock::try_lock_upgradable`: fails against an upgradable
or exclusive holder. -/
def rwTryLockUpgradable (s : RwState) : Bool × RwState :=
  if s.upg = false ∧ s.ex = false then (true, { s with upg := true })
  else (false, s)

/-- Model of the blocking `RawRwLock::lock_shared`, as used by `inflict`
on a freshly minted (uncontended) lock. -/
def rwLockShared (s : RwState) : RwState := { s with sh := s.sh + 1 }

/-- Model of the blocking `RawRwLock::lock_upgradable` on an uncontended
lock. -/
def rwLockUpgradable (s : RwState) : RwState := { s with upg := true }

/-- Model of the blocking `RawRwLock::lock_exclusive` on an uncontended
lock. -/
def rwLockExclusive (s : RwState) : RwState := { s with ex := true }

/-- Embedding of `AccessState::inflict` (src/counter.rs): replays the
decoded local lock state onto a reader-writer lock, one `lock_shared` per
ordinary shared holder, then `lock_upgradable` when the upgradable flag is
set, or a single `lock_exclusive` for a writer. -/
def inflict (st : AccessState) (s : RwState) : RwState :=
  match st with
  | .readers n u =>
      let s1 := Nat.iterate rwLockShared n s
      if u then rwLockUpgradable s1 else s1
  | .writer => rwLockExclusive s
  | .idle => s

/-- Embedding of `GlobalCounter::set_gen` (src/counter.rs): raises the
atomic count to the given value when that value is larger, otherwise
leaves the count unchanged. -/
def setGen (cur gen : Nat) : Nat := if gen ≤ cur then cur else gen

/-- Embedding of the lock-state part of `GlobalGeneration::from_local`
(src/counter.rs): the fresh global counter starts unlocked and receives
the local lock state via `inflict`. -/
def fromLocalLockState (st : AccessState) : RwState := inflict st rwInit

/-!
The lock protocol of `RawLocalCounter` as a labelled state machine: the
concrete `i32` cell paired with ghost counts of the outstanding holders
(ordinary shared, upgradable, exclusive). Steps are exactly the
state-changing `AccessControl` operations of src/counter.rs; an `unlock`
or `downgrade` step carries the protocol precondition that a holder of the
matching kind is outstanding, and an `upgrade` or
`shared_into_exclusive` step the precondition that the caller holds the
lock form it converts. Failing `try_*` calls leave the cell untouched in
the source and are therefore no-ops of the machine. -/
structure GhostState where
  access : Int
  ns : Nat
  nu : Nat
  ne : Nat
deriving DecidableEq

/-- Reachable lock states of one `RawLocalCounter`, starting unlocked. -/
inductive LockReach : GhostState → Prop
  | init : LockReach ⟨0, 0, 0, 0⟩
  | lockShared {s : GhostState} : LockReach s →
      (tryLockShared s.access).1 = true →
      LockReach ⟨(tryLockShared s.access).2, s.ns + 1, s.nu, s.ne⟩
  | lockExclusive {s : GhostState} : LockReach s →
      (tryLockExclusive s.access).1 = true →
      LockReach ⟨(tryLockExclusive s.access).2, s.ns, s.nu, s.ne + 1⟩
  | lockUpgradable {s : GhostState} : LockReach s →
      (tryLockUpgradable s.access).1 = true →
      LockReach ⟨(tryLockUpgradable s.access).2, s.ns, s.nu + 1, s.ne⟩
  | upgrade {s : GhostState} : LockReach s → 1 ≤ s.nu →
      (tryUpgrade s.access).1 = true →
      LockReach ⟨(tryUpgrade s.access).2, s.ns, s.nu - 1, s.ne + 1⟩
  | sharedIntoExclusive {s : GhostState} : LockReach s → 1 ≤ s.ns →
      (trySharedIntoExclusive s.access).1 = true →
      LockReach ⟨(trySharedIntoExclusive s.access).2, s.ns - 1, s.nu, s.ne + 1⟩
  | downgradeStep {s : GhostState} : LockReach s → 1 ≤ s.ne →
      LockReach ⟨downgradeLock s.access, s.ns + 1, s.nu, s.ne - 1⟩
  | unlockSharedStep {s : GhostState} : LockReach s → 1 ≤ s.ns →
      LockReach ⟨unlockShared s.access, s.ns - 1, s.nu, s.ne⟩
  | unlockUpgradableStep {s : GhostState} : LockReach s → 1 ≤ s.nu →
      LockReach ⟨unlockUpgradable s.access, s.ns, s.nu - 1, s.ne⟩
  | unlockExclusiveStep {s : GhostState} : LockReach s → 1 ≤ s.ne →
      LockReach ⟨unlockExclusive s.access, s.ns, s.nu, s.ne - 1⟩

/-- Coupling invariant of the lock protocol: the cell faithfully encodes
the outstanding holders, there is at most one exclusive and at most one
upgradable holder, and an exclusive holder excludes all shared holders. -/
def LockInv (s : GhostState) : Prop :=
  s.ne ≤ 1 ∧ s.nu ≤ 1 ∧
    (s.ne = 1 → s.ns = 0 ∧ s.nu = 0 ∧ s.access = -1) ∧
    (s.ne = 0 → s.access = 2 * s.ns + s.nu)

/-!
Promotion memoization (`LocalCounter::globalize`, src/counter.rs) over a
model of the leaked global counter arena: a minted global counter is
identified by its index, which stands for its permanently stable address.
-/

/-- The data of one `RawLocalCounter`: lock cell and count. -/
structure RawLocal where
  access : Int
  counter : Nat
deriving DecidableEq

/-- Embedding of `enum LocalOrGlobalCounter` (src/counter.rs): the cell of
a `LocalCounter`, which is either a placeholder (only transiently), the
raw thread-confined counter, or the cached promoted global generation. -/
inductive LocalOrGlobalCounter
  | placeholder
  | localC (rlc : RawLocal)
  | globalC (g : Nat)
deriving DecidableEq

/-- Model of the global counter arena: the list of minted global
counters, each recorded as its count and reader-writer lock state; a
counter's index is its identity (its leaked, never-moving address). -/
structure GlobalArena where
  minted : List (Nat × RwState)
deriving DecidableEq

/-- Embedding of `GlobalGeneration::from_local` (src/counter.rs): mint a
fresh global counter, raise its count to the local count via `set_gen`,
and replay the decoded local lock state onto its lock via `inflict`. An
undecodable lock cell makes `AccessState::new` panic, modelled as
`none`. -/
def fromLocal (rlc : RawLocal) (ar : GlobalArena) :
    Option (Nat × GlobalArena) :=
  match accessStateNew rlc.access with
  | some st =>
      some (ar.minted.length,
        ⟨ar.minted ++ [(setGen 1 rlc.counter, fromLocalLockState st)]⟩)
  | none => none

/-- Embedding of `LocalCounter::globalize` (src/counter.rs): the cell is
swapped for the placeholder; a `Local` payload is promoted through
`GlobalGeneration::from_local`, an already-`Global` payload is returned as
it is; the resulting global generation is stored back into the cell and
returned. Finding the placeholder in the cell panics, modelled as
`none`. -/
def globalize (c : LocalOrGlobalCounter) (ar : GlobalArena) :
    Option (Nat × LocalOrGlobalCounter × GlobalArena) :=
  match c with
  | .placeholder => none
  | .localC rlc =>
      match fromLocal rlc ar with
      | some (g, ar2) => some (g, .globalC g, ar2)
      | none => none
  | .globalC g => some (g, .globalC g, ar)

/-!
The deferred-drop pool of src/allocator.rs, embedded exactly as written
(including the polarity of `is_safe`). Payloads and their slots are
represented by identifiers; `destroyed` records every executed payload
destructor, most recent first.
-/

/-- State of `LocalFreeListPool` (src/allocator.rs) as far as the
deferred-drop machinery observes it. -/
structure LocalFreeListPool where
  guards : Nat
  dropq : List Nat
  destroyed : List Nat
  freeList : List Nat
deriving DecidableEq

/-- Embedding of `LocalFreeListPool::is_safe` (src/allocator.rs), exactly
as the source writes it: `self.guards > 0`. -/
def isSafe (p : LocalFreeListPool) : Bool := decide (0 < p.guards)

/-- Embedding of `LocalFreeListPool::free_now` for a payload not at end of
life: the destructor runs and the slot joins the free list. -/
def freeNow (x : Nat) (p : LocalFreeListPool) : LocalFreeListPool :=
  { p with destroyed := x :: p.destroyed, freeList := x :: p.freeList }

/-- Embedding of `LocalFreeListPool::drop_later`: the payload drop is
boxed and queued. -/
def dropLater (x : Nat) (p : LocalFreeListPool) : LocalFreeListPool :=
  { p with dropq := x :: p.dropq }

/-- Embedding of `LocalFreeListPool::reclaim` (src/allocator.rs), the
entry point of `Owned::drop`: frees now when `is_safe()`, defers
otherwise. -/
def reclaim (x : Nat) (p : LocalFreeListPool) : LocalFreeListPool :=
  if isSafe p then freeNow x p else dropLater x p

/-- Embedding of `LocalFreeListPool::purge_drop_queue`
(src/allocator.rs): when `is_safe()` and the queue is non-empty, the
queue is swapped out and every deferred destructor runs, returning each
slot to the free list. -/
def purgeDropQueue (p : LocalFreeListPool) : LocalFreeListPool :=
  if isSafe p ∧ p.dropq ≠ [] then
    { p with dropq := [], destroyed := p.dropq ++ p.destroyed,
             freeList := p.dropq ++ p.freeList }
  else p

/-- Embedding of `LocalFreeListPool::deregister_guard` (src/allocator.rs),
run when a `Guard` is dropped. -/
def deregisterGuard (p : LocalFreeListPool) : LocalFreeListPool :=
  purgeDropQueue { p with guards := p.guards - 1 }

/-!
The weak-handle access paths of src/lib.rs.
-/

/-- Embedding of `Weak::try_read` (src/lib.rs). The live count is observed
twice: `c1` at the validity pre-check and `c2` at the re-check performed
after the shared lock has been acquired (the owner may be dropped
concurrently between the two observations); `a` is the lock cell, which
only this call touches. Returns whether a `Reading` accessor was produced
together with the final lock cell. -/
def weakTryRead (cached c1 : Nat) (a : Int) (c2 : Nat) : Bool × Int :=
  if isValid cached c1 then
    match tryLockShared a with
    | (true, a1) =>
        if isValid cached c2 then (true, a1) else (false, unlockShared a1)
    | (false, a1) => (false, a1)
  else (false, a)

/-- Embedding of `Weak::try_write` (src/lib.rs), exactly as `try_read`
with the exclusive lock. -/
def weakTryWrite (cached c1 : Nat) (a : Int) (c2 : Nat) : Bool × Int :=
  if isValid cached c1 then
    match tryLockExclusive a with
    | (true, a1) =>
        if isValid cached c2 then (true, a1) else (false, unlockExclusive a1)
    | (false, a1) => (false, a1)
  else (false, a)

/-- Embedding of `impl Drop for Strong` (src/lib.rs): the generation count
is bumped first, unconditionally; only then is the exclusive lock tried,
and on success the payload is dropped, the lock released and the counter
freed, while on failure the payload drop is left for the accessor that
later observes the stale count. Returns the new count, the new lock cell
and whether the payload was dropped during this call. -/
def strongDrop (count : Nat) (a : Int) : Nat × Int × Bool :=
  let c := bump count
  match tryLockExclusive a with
  | (true, a1) => (c, unlockExclusive a1, true)
  | (false, _) => (c, a, false)

/-!
Trace model for the lifetime of one allocation slot and the weak handles
stamped against it. The observable count of a slot is mutated in two ways
in src/lib.rs and src/counter.rs. First, a `bump`, performed by
`Strong::drop` and by a successful `Strong::try_take`, each of which
consumes the owning handle. Second, promotion: `Strong::make_sharable`
and `Weak::make_sharable`/`share` call `LocalCounter::globalize` with no
validity check, and `GlobalGeneration::from_local` mints a fresh global
counter at `COUNTER_INIT = 1` and raises it to the local count via
`set_gen`, after which every read of the slot's count delegates to the
global counter; the net effect on the observable count is `setGen 1`,
the identity for every nonzero count but a revival of the wrapped `0`
sentinel to `1`. A freed slot (count nonzero) may be popped from the
free list and paired with a new owner, which leaves the count untouched;
that owner's later drop or take bumps again. All other operations (alias
creation, accessor locking and unlocking, deferred payload drops) leave
the count unchanged and are identity steps of this relation. -/
structure OwnerTrace where
  count : Nat
  origAlive : Bool
  curAlive : Bool
deriving DecidableEq

/-- One count-relevant step of an allocation slot: `ownerDrop` is
`Strong::drop`, `ownerTake` a successful `Strong::try_take`, `realloc`
the recycling of the freed slot for a fresh owning handle, and `promote`
the promotion of the slot through `LocalCounter::globalize` (available at
any time to any surviving handle, valid or stale, and an identity on the
count except at the wrapped `0` sentinel, which `set_gen` leaves at the
fresh global count `1`). -/
inductive OwnerStep : OwnerTrace → OwnerTrace → Prop
  | ownerDrop {t : OwnerTrace} : t.curAlive = true →
      OwnerStep t ⟨bump t.count, false, false⟩
  | ownerTake {t : OwnerTrace} : t.curAlive = true →
      OwnerStep t ⟨bump t.count, false, false⟩
  | realloc {t : OwnerTrace} : t.curAlive = false → t.count ≠ 0 →
      OwnerStep t ⟨t.count, t.origAlive, true⟩
  | promote {t : OwnerTrace} :
      OwnerStep t ⟨setGen 1 t.count, t.origAlive, t.curAlive⟩

/-- Reachability along `OwnerStep`. -/
inductive OwnerReach (t0 : OwnerTrace) : OwnerTrace → Prop
  | refl : OwnerReach t0 t0
  | tail {t1 t2 : OwnerTrace} : OwnerReach t0 t1 → OwnerStep t1 t2 →
      OwnerReach t0 t2

/-!
Bitwise facts about the `i32` lock-cell encoding, relating `Int.land` and
`Int.lor` with bit zero to parity arithmetic.
-/

theorem int_land_ofNat (m n : Nat) :
    Int.land (Int.ofNat m) (Int.ofNat n) = Int.ofNat (m &&& n) := rfl

theorem int_lor_ofNat (m n : Nat) :
    Int.lor (Int.ofNat m) (Int.ofNat n) = Int.ofNat (m ||| n) := rfl

theorem nat_two_mul_lor_one (k : Nat) : 2 * k ||| 1 = 2 * k + 1 := by
  apply Nat.eq_of_testBit_eq
  intro i
  cases i with
  | zero =>
      simp [Nat.testBit_or, Nat.testBit_zero, Nat.mul_add_mod, Nat.add_mul_mod_self_left]
  | succ j =>
      rw [Nat.testBit_or, Nat.testBit_add_one, Nat.testBit_add_one, Nat.testBit_add_one]
      have h1 : (2 * k) / 2 = k := by omega
      have h2 : (2 * k + 1) / 2 = k := by omega
      have h3 : (1 : Nat) / 2 = 0 := by omega
      rw [h1, h2, h3]
      simp [Nat.zero_testBit]

theorem nat_ldiff_odd_one (k : Nat) : Nat.ldiff (2 * k + 1) 1 = 2 * k := by
  apply Nat.eq_of_testBit_eq
  intro i
  cases i with
  | zero =>
      rw [Nat.testBit_ldiff]
      simp [Nat.testBit_zero, Nat.mul_add_mod]
  | succ j =>
      rw [Nat.testBit_ldiff, Nat.testBit_add_one, Nat.testBit_add_one, Nat.testBit_add_one]
      have h2 : (2 * k + 1) / 2 = k := by omega
      have h1 : (2 * k) / 2 = k := by omega
      have h3 : (1 : Nat) / 2 = 0 := by omega
      rw [h1, h2, h3]
      simp [Nat.zero_testBit]

theorem land_one_two_mul (k : Nat) : Int.land (2 * (k : Int)) 1 = 0 := by
  have h : (2 * (k : Int)) = Int.ofNat (2 * k) := by rw [Int.ofNat_eq_coe]; push_cast; ring
  rw [h]
  show Int.ofNat (2 * k &&& 1) = 0
  rw [Nat.and_one_is_mod]
  simp [Nat.mul_mod_right]

theorem land_one_two_mul_add_one (k : Nat) :
    Int.land (2 * (k : Int) + 1) 1 = 1 := by
  have h : (2 * (k : Int) + 1) = Int.ofNat (2 * k + 1) := by rw [Int.ofNat_eq_coe]; push_cast; ring
  rw [h]
  show Int.ofNat ((2 * k + 1) &&& 1) = 1
  rw [Nat.and_one_is_mod]
  simp [Nat.mul_add_mod]

theorem nat_ldiff_zero (m : Nat) : Nat.ldiff m 0 = m := by
  apply Nat.eq_of_testBit_eq
  intro i
  rw [Nat.testBit_ldiff]
  simp [Nat.zero_testBit]

theorem land_one_neg_one : Int.land (-1) 1 = 1 := by
  show ((Nat.ldiff 1 0 : Nat) : Int) = 1
  rw [nat_ldiff_zero]
  simp

theorem lor_one_two_mul (k : Nat) :
    Int.lor (2 * (k : Int)) 1 = 2 * (k : Int) + 1 := by
  have h : (2 * (k : Int)) = Int.ofNat (2 * k) := by rw [Int.ofNat_eq_coe]; push_cast; ring
  rw [h]
  show Int.ofNat (2 * k ||| 1) = _
  rw [nat_two_mul_lor_one]
  simp only [Int.ofNat_eq_coe]
  push_cast
  ring

theorem land_neg_two_two_mul_add_one (k : Nat) :
    Int.land (2 * (k : Int) + 1) (-2) = 2 * (k : Int) := by
  have h : (2 * (k : Int) + 1) = Int.ofNat (2 * k + 1) := by rw [Int.ofNat_eq_coe]; push_cast; ring
  rw [h]
  show Int.ofNat (Nat.ldiff (2 * k + 1) 1) = _
  rw [nat_ldiff_odd_one]
  simp only [Int.ofNat_eq_coe]
  push_cast
  ring

theorem iterate_rwLockShared (n : Nat) (s : RwState) :
    Nat.iterate rwLockShared n s = { s with sh := s.sh + n } := by
  induction n with
  | zero => simp [Nat.iterate]
  | succ k ih =>
      rw [Function.iterate_succ_apply', ih]
      simp [rwLockShared]
      omega

theorem lockReach_inv {s : GhostState} (h : LockReach s) : LockInv s := by
  induction h with
  | init => exact ⟨by decide, by decide, by decide, by decide⟩
  | @lockShared t hr hs ih =>
      obtain ⟨h1, h2, h3, h4⟩ := ih
      have hacc : 0 ≤ t.access := by
        by_contra hneg
        simp [tryLockShared, hneg] at hs
      have hne : t.ne = 0 := by
        by_contra hx
        have h5 := h3 (by omega)
        omega
      have heq := h4 hne
      have hsnd : (tryLockShared t.access).2 = t.access + 2 := by
        simp [tryLockShared, hacc]
      rw [hsnd]
      refine ⟨?_, ?_, ?_, ?_⟩ <;> dsimp only
      · omega
      · omega
      · intro hcon; omega
      · intro _
        push_cast
        omega
  | @lockExclusive t hr hs ih =>
      obtain ⟨h1, h2, h3, h4⟩ := ih
      have hacc : t.access = 0 := by
        by_contra hx
        simp [tryLockExclusive, hx] at hs
      have hne : t.ne = 0 := by
        by_contra hx
        have h5 := h3 (by omega)
        rw [hacc] at h5
        obtain ⟨-, -, h6⟩ := h5
        omega
      have heq := h4 hne
      rw [hacc] at heq
      have hns : t.ns = 0 := by omega
      have hnu : t.nu = 0 := by omega
      have hsnd : (tryLockExclusive t.access).2 = -1 := by
        simp [tryLockExclusive, hacc]
      rw [hsnd]
      refine ⟨?_, ?_, ?_, ?_⟩ <;> dsimp only
      · omega
      · omega
      · intro _
        exact ⟨hns, hnu, rfl⟩
      · intro hcon
        omega
  | @lockUpgradable t hr hs ih =>
      obtain ⟨h1, h2, h3, h4⟩ := ih
      have hne : t.ne = 0 := by
        by_contra hx
        have h5 := h3 (by omega)
        rw [h5.2.2] at hs
        simp [tryLockUpgradable, land_one_neg_one] at hs
      have heq := h4 hne
      have hnu : t.nu = 0 := by
        by_contra hx
        have h6 : t.nu = 1 := by omega
        rw [heq, h6] at hs
        push_cast at hs
        simp [tryLockUpgradable, land_one_two_mul_add_one] at hs
      have hsnd : (tryLockUpgradable t.access).2 = 2 * (t.ns : Int) + 1 := by
        rw [heq, hnu]
        push_cast
        simp [tryLockUpgradable, land_one_two_mul, lor_one_two_mul]
      rw [hsnd]
      refine ⟨?_, ?_, ?_, ?_⟩ <;> dsimp only
      · omega
      · omega
      · intro hcon
        omega
      · intro _
        push_cast
        omega
  | @upgrade t hr hnu1 hs ih =>
      obtain ⟨h1, h2, h3, h4⟩ := ih
      have hacc : t.access = 1 := by
        by_contra hx
        simp [tryUpgrade, hx] at hs
      have hne : t.ne = 0 := by
        by_contra hx
        have h5 := h3 (by omega)
        rw [hacc] at h5
        obtain ⟨-, -, h6⟩ := h5
        omega
      have heq := h4 hne
      rw [hacc] at heq
      have hns : t.ns = 0 := by omega
      have hnu : t.nu = 1 := by omega
      have hsnd : (tryUpgrade t.access).2 = -1 := by
        simp [tryUpgrade, hacc]
      rw [hsnd]
      refine ⟨?_, ?_, ?_, ?_⟩ <;> dsimp only
      · omega
      · omega
      · intro _
        refine ⟨hns, by omega, rfl⟩
      · intro hcon
        omega
  | @sharedIntoExclusive t hr hns1 hs ih =>
      obtain ⟨h1, h2, h3, h4⟩ := ih
      have hacc : t.access = 2 := by
        by_contra hx
        simp [trySharedIntoExclusive, hx] at hs
      have hne : t.ne = 0 := by
        by_contra hx
        have h5 := h3 (by omega)
        omega
      have heq := h4 hne
      rw [hacc] at heq
      have hns : t.ns = 1 := by omega
      have hnu : t.nu = 0 := by omega
      have hsnd : (trySharedIntoExclusive t.access).2 = -1 := by
        simp [trySharedIntoExclusive, hacc]
      rw [hsnd]
      refine ⟨?_, ?_, ?_, ?_⟩ <;> dsimp only
      · omega
      · omega
      · intro _
        refine ⟨by omega, hnu, rfl⟩
      · intro hcon
        omega
  | @downgradeStep t hr hne1 ih =>
      obtain ⟨h1, h2, h3, h4⟩ := ih
      have h5 := h3 (by omega)
      have hsnd : downgradeLock t.access = 2 := rfl
      rw [hsnd]
      refine ⟨?_, ?_, ?_, ?_⟩ <;> dsimp only
      · omega
      · omega
      · intro hcon
        omega
      · intro _
        rw [h5.1, h5.2.1]
        norm_num
  | @unlockSharedStep t hr hns1 ih =>
      obtain ⟨h1, h2, h3, h4⟩ := ih
      have hne : t.ne = 0 := by
        by_contra hx
        have h5 := h3 (by omega)
        omega
      have heq := h4 hne
      have hsnd : unlockShared t.access = t.access - 2 := rfl
      rw [hsnd]
      refine ⟨?_, ?_, ?_, ?_⟩ <;> dsimp only
      · omega
      · omega
      · intro hcon
        omega
      · intro _
        omega
  | @unlockUpgradableStep t hr hnu1 ih =>
      obtain ⟨h1, h2, h3, h4⟩ := ih
      have hne : t.ne = 0 := by
        by_contra hx
        have h5 := h3 (by omega)
        omega
      have heq := h4 hne
      have hnu : t.nu = 1 := by omega
      have hsnd : unlockUpgradable t.access = 2 * (t.ns : Int) := by
        show Int.land t.access (-2) = _
        rw [heq, hnu]
        push_cast
        exact land_neg_two_two_mul_add_one t.ns
      rw [hsnd]
      refine ⟨?_, ?_, ?_, ?_⟩ <;> dsimp only
      · omega
      · omega
      · intro hcon
        omega
      · intro _
        omega
  | @unlockExclusiveStep t hr hne1 ih =>
      obtain ⟨h1, h2, h3, h4⟩ := ih
      have h5 := h3 (by omega)
      have hsnd : unlockExclusive t.access = 0 := rfl
      rw [hsnd]
      refine ⟨?_, ?_, ?_, ?_⟩ <;> dsimp only
      · omega
      · omega
      · intro hcon
        omega
      · intro _
        rw [h5.1, h5.2.1]
        norm_num

/-!
Inversion of the `AccessState::new` decoding.
-/

theorem accessStateNew_readers {a : Int} {n : Nat} {u : Bool}
    (h : accessStateNew a = some (.readers n u)) :
    a = 2 * (n : Int) + (if u then 1 else 0) := by
  unfold accessStateNew at h
  by_cases h1 : 1 ≤ a
  · rw [if_pos h1] at h
    simp only [Option.some.injEq, AccessState.readers.injEq] at h
    obtain ⟨hn, hu⟩ := h
    have ha : a = Int.ofNat a.toNat := (Int.toNat_of_nonneg (by omega)).symm
    have hm : Int.land a 1 = ((a.toNat % 2 : Nat) : Int) := by
      rw [ha]
      show Int.ofNat (a.toNat &&& 1) = _
      rw [Nat.and_one_is_mod]
      simp [Int.ofNat_eq_coe]
    rcases Nat.mod_two_eq_zero_or_one a.toNat with hx | hx
    · have hu0 : u = false := by
        rw [hm, hx] at hu
        simpa using hu.symm
      rw [hu0, ha]
      simp only [Int.ofNat_eq_coe]
      norm_num
      omega
    · have hu1 : u = true := by
        rw [hm, hx] at hu
        simpa using hu.symm
      rw [hu1, ha]
      simp only [Int.ofNat_eq_coe]
      norm_num
      omega
  · rw [if_neg h1] at h
    split_ifs at h <;> simp_all
    
theorem accessStateNew_writer {a : Int} (h : accessStateNew a = some .writer) :
    a = -1 := by
  unfold accessStateNew at h
  split_ifs at h <;> simp_all

theorem accessStateNew_idle {a : Int} (h : accessStateNew a = some .idle) :
    a = 0 := by
  unfold accessStateNew at h
  split_ifs at h <;> simp_all

/-- C2: in every lock state of a `RawLocalCounter` reachable from Unlocked
by the access-control protocol, at most one exclusive holder exists, an
exclusive holder excludes all shared and upgradable holders,
`try_lock_exclusive` fails and leaves the cell unchanged whenever at least
one shared holder (ordinary or upgradable) exists, and `try_lock_shared`
fails and leaves the cell unchanged whenever the exclusive lock is
held. -/
theorem lock_mutual_exclusion {s : GhostState} (h : LockReach s) :
    s.ne ≤ 1 ∧
    (s.ne = 1 → s.ns = 0 ∧ s.nu = 0) ∧
    (1 ≤ s.ns + s.nu → tryLockExclusive s.access = (false, s.access)) ∧
    (s.ne = 1 → tryLockShared s.access = (false, s.access)) := by
  obtain ⟨h1, h2, h3, h4⟩ := lockReach_inv h
  refine ⟨h1, fun hne => ⟨(h3 hne).1, (h3 hne).2.1⟩, ?_, ?_⟩
  · intro hsh
    have hne : s.ne = 0 := by
      by_contra hx
      have h5 := h3 (by omega)
      omega
    have heq := h4 hne
    have hnz : s.access ≠ 0 := by
      rw [heq]
      omega
    simp [tryLockExclusive, hnz]
  · intro hne
    have h5 := h3 hne
    rw [h5.2.2]
    decide

/-- Witness for C2 at the reachable state with one ordinary shared holder
(cell value 2). -/
theorem lock_mutual_exclusion_witness :
    tryLockExclusive 2 = (false, 2) ∧ tryLockShared (-1) = (false, -1) := by
  have hs : LockReach ⟨2, 1, 0, 0⟩ :=
    LockReach.lockShared LockReach.init (by decide)
  have hx : LockReach ⟨-1, 0, 0, 1⟩ :=
    LockReach.lockExclusive LockReach.init (by decide)
  exact ⟨(lock_mutual_exclusion hs).2.2.1 (by decide),
         (lock_mutual_exclusion hx).2.2.2 rfl⟩

/-- C5: on a `RawLocalCounter` whose decoded lock state is shared with the
upgradable flag held, `try_upgrade` succeeds exactly when the upgradable
holder is the only shared holder, in which case the cell becomes the
exclusive value `-1`; in every other case it returns false and leaves the
cell exactly as it was. -/
theorem try_upgrade_atomicity {a : Int} {n : Nat}
    (h : accessStateNew a = some (.readers n true)) :
    ((tryUpgrade a).1 = true ↔ n = 0) ∧
    ((tryUpgrade a).1 = true → (tryUpgrade a).2 = -1) ∧
    ((tryUpgrade a).1 = false → (tryUpgrade a).2 = a) := by
  have ha : a = 2 * (n : Int) + 1 := by
    have h0 := accessStateNew_readers h
    simpa using h0
  subst ha
  refine ⟨?_, ?_, ?_⟩
  · constructor
    · intro hs
      by_contra hn
      have : (2 * (n : Int) + 1) ≠ 1 := by omega
      simp [tryUpgrade, this] at hs
    · intro hn
      subst hn
      decide
  · intro hs
    have hn : (2 * (n : Int) + 1) = 1 := by
      by_contra hx
      simp [tryUpgrade, hx] at hs
    simp [tryUpgrade, hn]
  · intro hs
    have hn : (2 * (n : Int) + 1) ≠ 1 := by
      intro hx
      simp [tryUpgrade, hx] at hs
    simp [tryUpgrade, hn]

/-- Witness for C5 at cell value 3 (one upgradable holder plus one
ordinary shared holder): the upgrade fails and the cell is untouched. -/
theorem try_upgrade_atomicity_witness :
    ((tryUpgrade 3).1 = true ↔ (1 : Nat) = 0) ∧
    ((tryUpgrade 3).1 = true → (tryUpgrade 3).2 = -1) ∧
    ((tryUpgrade 3).1 = false → (tryUpgrade 3).2 = 3) := by
  have h : accessStateNew 3 = some (.readers 1 true) := by decide
  have := try_upgrade_atomicity h
  norm_num at this ⊢
  exact this

/-- C8: promoting a thread-confined counter replays its decoded lock state
onto the fresh shared reader-writer lock (`AccessState::inflict` inside
`GlobalGeneration::from_local`), so that immediately after promotion each
of the three `try_lock` queries on the shared counter answers exactly as
the local counter would have answered before promotion. -/
theorem promotion_preserves_lock_queries {a : Int} {st : AccessState}
    (h : accessStateNew a = some st) :
    (rwTryLockShared (fromLocalLockState st)).1 = (tryLockShared a).1 ∧
    (rwTryLockExclusive (fromLocalLockState st)).1 = (tryLockExclusive a).1 ∧
    (rwTryLockUpgradable (fromLocalLockState st)).1 = (tryLockUpgradable a).1 := by
  cases st with
  | readers n u =>
      have ha := accessStateNew_readers h
      cases u with
      | false =>
          simp only [if_neg Bool.false_ne_true, add_zero] at ha
          subst ha
          have hg : fromLocalLockState (.readers n false) = ⟨n, false, false⟩ := by
            simp [fromLocalLockState, inflict, iterate_rwLockShared, rwInit]
          rw [hg]
          have hpos : (0 : Int) ≤ 2 * (n : Int) := by positivity
          refine ⟨?_, ?_, ?_⟩
          · simp [rwTryLockShared, tryLockShared, hpos]
          · by_cases hn : n = 0
            · subst hn
              decide
            · have hnz : 2 * (n : Int) ≠ 0 := by
                simp
                omega
              simp [rwTryLockExclusive, tryLockExclusive, hn, hnz]
          · simp [rwTryLockUpgradable, tryLockUpgradable, land_one_two_mul]
      | true =>
          simp only [if_pos rfl] at ha
          subst ha
          have hg : fromLocalLockState (.readers n true) = ⟨n, true, false⟩ := by
            simp [fromLocalLockState, inflict, iterate_rwLockShared, rwInit,
              rwLockUpgradable]
          rw [hg]
          have hpos : (0 : Int) ≤ 2 * (n : Int) + 1 := by positivity
          refine ⟨?_, ?_, ?_⟩
          · simp [rwTryLockShared, tryLockShared, hpos]
          · have hnz : 2 * (n : Int) + 1 ≠ 0 := by omega
            simp [rwTryLockExclusive, tryLockExclusive, hnz]
          · simp [rwTryLockUpgradable, tryLockUpgradable, land_one_two_mul_add_one]
  | writer =>
      have ha := accessStateNew_writer h
      subst ha
      have hg : fromLocalLockState .writer = ⟨0, false, true⟩ := by
        simp [fromLocalLockState, inflict, rwLockExclusive, rwInit]
      rw [hg]
      refine ⟨by decide, by decide, ?_⟩
      simp [rwTryLockUpgradable, tryLockUpgradable, land_one_neg_one]
  | idle =>
      have ha := accessStateNew_idle h
      subst ha
      have hg : fromLocalLockState .idle = ⟨0, false, false⟩ := rfl
      rw [hg]
      refine ⟨by decide, by decide, by decide⟩

/-- Witness for C8 at cell value 3 (one ordinary shared holder plus the
upgradable holder). -/
theorem promotion_preserves_lock_queries_witness :
    (rwTryLockShared (fromLocalLockState (.readers 1 true))).1 =
      (tryLockShared 3).1 ∧
    (rwTryLockExclusive (fromLocalLockState (.readers 1 true))).1 =
      (tryLockExclusive 3).1 ∧
    (rwTryLockUpgradable (fromLocalLockState (.readers 1 true))).1 =
      (tryLockUpgradable 3).1 :=
  promotion_preserves_lock_queries (by decide)

theorem bump_zero : bump 0 = 0 := rfl

theorem bump_ne_self {c : Nat} (h0 : 0 < c) (h1 : c < u32Lim) :
    bump c ≠ c := by
  unfold bump
  rw [if_neg (by omega)]
  intro hx
  rcases Nat.lt_or_ge (c + 1) u32Lim with h | h
  · rw [Nat.mod_eq_of_lt h] at hx
    omega
  · have hc : c + 1 = u32Lim := by omega
    rw [hc, Nat.mod_self] at hx
    omega

theorem bumpIter_char {c : Nat} (h0 : 0 < c) (h1 : c < u32Lim) (n : Nat) :
    bumpIter n c = if c + n < u32Lim then c + n else 0 := by
  induction n with
  | zero =>
      show c = _
      rw [if_pos (by omega)]
      omega
  | succ k ih =>
      unfold bumpIter at ih ⊢
      rw [Function.iterate_succ_apply', ih]
      by_cases h : c + k < u32Lim
      · rw [if_pos h]
        unfold bump
        rw [if_neg (by omega)]
        rcases Nat.lt_or_ge (c + k + 1) u32Lim with h2 | h2
        · rw [Nat.mod_eq_of_lt h2, if_pos (by omega)]
          omega
        · have hc : c + k + 1 = u32Lim := by omega
          rw [hc, Nat.mod_self, if_neg (by omega)]
      · rw [if_neg h, if_neg (by omega)]
        exact bump_zero

theorem bumpIter_succ_ne_self {c : Nat} (h0 : 0 < c) (h1 : c < u32Lim)
    (n : Nat) : bumpIter (n + 1) c ≠ c := by
  rw [bumpIter_char h0 h1]
  by_cases h : c + (n + 1) < u32Lim
  · rw [if_pos h]
    omega
  · rw [if_neg h]
    omega

/-- C6 counterexample: the free operation of the canonical counter
(src/counter.rs) does return a counter whose count has reached the
maximum `u32` value to the free list, so such a counter is recycled one
more time. -/
theorem counter_at_max_is_freed :
    localGenerationFree u32Max [] = [u32Max] := by decide

/-- C6 amended: the retirement sentinel of src/counter.rs is count `0`,
reached when the bump after the maximum value wraps around; a counter at
`0` is never pushed onto a free list, its count never changes again under
any number of further bumps, and hence it is never recycled. -/
theorem counter_leak_at_wraparound :
    bump u32Max = 0 ∧
    (∀ l : List Nat, localGenerationFree 0 l = l) ∧
    (∀ k : Nat, bumpIter k 0 = 0) := by
  refine ⟨by decide, fun l => by simp [localGenerationFree], fun k => ?_⟩
  induction k with
  | zero => rfl
  | succ n ih =>
      unfold bumpIter at ih ⊢
      rw [Function.iterate_succ_apply', ih]
      exact bump_zero

/-- C7 counterexample: `RawLocalCounter::unlock_shared` called on the
unlocked cell does not trap; it returns normally and silently moves the
cell to `-2`, and `unlock_exclusive` called on a purely shared cell
silently resets it to unlocked. -/
theorem unlock_violation_does_not_trap :
    unlockShared 0 = -2 ∧ unlockExclusive 2 = 0 := by decide

/-- C7 amended: the unlock operations of `RawLocalCounter` are unchecked:
on a mismatched state they return normally and silently corrupt the
cell. `unlock_shared` on the unlocked cell yields `-2`, a value the lock
protocol can never reach and the lock-state decoder rejects, and
`unlock_exclusive` on a shared cell silently discards the shared holders;
no trap occurs at the unlock itself. -/
theorem unlock_violation_silent :
    unlockShared 0 = -2 ∧
    accessStateNew (-2) = none ∧
    (∀ s : GhostState, LockReach s → s.access ≠ -2) ∧
    unlockExclusive 2 = 0 := by
  refine ⟨by decide, by decide, ?_, by decide⟩
  intro s hs
  obtain ⟨h1, h2, h3, h4⟩ := lockReach_inv hs
  by_cases hne : s.ne = 1
  · rw [(h3 hne).2.2]
    decide
  · have h5 := h4 (by omega)
    rw [h5]
    omega

/-- Witness for the amended C7 claim at the initial (unlocked) state. -/
theorem unlock_violation_silent_witness :
    unlockShared 0 = -2 ∧ (⟨0, 0, 0, 0⟩ : GhostState).access ≠ -2 :=
  ⟨unlock_violation_silent.1,
   unlock_violation_silent.2.2.1 ⟨0, 0, 0, 0⟩ LockReach.init⟩

/-- C3: evaluation of the deferred-drop machinery of src/allocator.rs at
the failing input. With one outstanding guard, `reclaim` (called by
`Owned::drop`) runs the payload destructor immediately, because `is_safe`
is written as `guards > 0`; with no outstanding guard the payload is
queued instead; and when the last guard is deregistered the queue is not
purged, so the queued destructor has still not run. Each conjunct
contradicts the claimed deferral behaviour. -/
theorem reclaim_with_guard_destroys_immediately :
    (reclaim 7 ⟨1, [], [], []⟩).destroyed = [7] ∧
    (reclaim 7 ⟨0, [], [], []⟩).dropq = [7] ∧
    (reclaim 7 ⟨0, [], [], []⟩).destroyed = [] ∧
    (deregisterGuard ⟨1, [5], [], []⟩).dropq = [5] ∧
    (deregisterGuard ⟨1, [5], [], []⟩).destroyed = [] := by decide

/-- C9: `LocalCounter::globalize` memoizes its result: after a first
promotion returned the global counter `g1` and cached it in the cell, a
second promotion returns the identical global counter (the same arena
slot, hence the same address), mints nothing new, and leaves the cell and
the arena unchanged. -/
theorem globalize_memoizes {c c1 : LocalOrGlobalCounter}
    {ar ar1 : GlobalArena} {g1 : Nat}
    (h : globalize c ar = some (g1, c1, ar1)) :
    globalize c1 ar1 = some (g1, c1, ar1) := by
  cases c with
  | placeholder => simp [globalize] at h
  | localC rlc =>
      simp only [globalize] at h
      rcases hf : fromLocal rlc ar with - | ⟨g, ar2⟩ <;> rw [hf] at h
      · simp at h
      · simp at h
        obtain ⟨hg, hc1, har⟩ := h
        subst hg
        subst hc1
        subst har
        rfl
  | globalC g =>
      simp only [globalize] at h
      simp at h
      obtain ⟨hg, hc1, har⟩ := h
      subst hg
      subst hc1
      subst har
      rfl

/-- Witness for C9: a local counter (unlocked, count 1) promoted against
the empty arena yields global counter 0; promoting the cached result
yields the same global counter 0 and changes nothing. -/
theorem globalize_memoizes_witness :
    globalize (.globalC 0) ⟨[(1, ⟨0, false, false⟩)]⟩ =
      some (0, .globalC 0, ⟨[(1, ⟨0, false, false⟩)]⟩) :=
  @globalize_memoizes (.localC ⟨0, 1⟩) (.globalC 0) ⟨[]⟩
    ⟨[(1, ⟨0, false, false⟩)]⟩ 0 (by decide)

/-- C4: `Weak::try_read` and `Weak::try_write` return an accessor exactly
when the validity pre-check passes, the lock is acquired, and the cached
count still equals the live count at the re-check performed after the
lock succeeded; whenever they return none, any lock acquired during the
attempt has been released and the lock cell is exactly as before the
call. -/
theorem weak_try_access_release (cached c1 c2 : Nat) (a : Int) :
    ((weakTryRead cached c1 a c2).1 = true ↔
      (isValid cached c1 = true ∧ (tryLockShared a).1 = true ∧
        isValid cached c2 = true)) ∧
    ((weakTryRead cached c1 a c2).1 = false →
      (weakTryRead cached c1 a c2).2 = a) ∧
    ((weakTryWrite cached c1 a c2).1 = true ↔
      (isValid cached c1 = true ∧ (tryLockExclusive a).1 = true ∧
        isValid cached c2 = true)) ∧
    ((weakTryWrite cached c1 a c2).1 = false →
      (weakTryWrite cached c1 a c2).2 = a) := by
  by_cases hv1 : isValid cached c1 = true
  · constructor
    · by_cases hl : (0 : Int) ≤ a
      · have ht : tryLockShared a = (true, a + 2) := by
          simp [tryLockShared, hl]
        by_cases hv2 : isValid cached c2 = true
        · simp [weakTryRead, hv1, ht, hv2]
        · simp [weakTryRead, hv1, ht, hv2]
      · have ht : tryLockShared a = (false, a) := by
          simp [tryLockShared, hl]
        simp [weakTryRead, hv1, ht]
    constructor
    · by_cases hl : (0 : Int) ≤ a
      · have ht : tryLockShared a = (true, a + 2) := by
          simp [tryLockShared, hl]
        by_cases hv2 : isValid cached c2 = true
        · simp [weakTryRead, hv1, ht, hv2]
        · simp [weakTryRead, hv1, ht, hv2, unlockShared]
      · have ht : tryLockShared a = (false, a) := by
          simp [tryLockShared, hl]
        simp [weakTryRead, hv1, ht]
    constructor
    · by_cases hl : a = 0
      · have ht : tryLockExclusive a = (true, -1) := by
          simp [tryLockExclusive, hl]
        by_cases hv2 : isValid cached c2 = true
        · simp [weakTryWrite, hv1, ht, hv2]
        · simp [weakTryWrite, hv1, ht, hv2]
      · have ht : tryLockExclusive a = (false, a) := by
          simp [tryLockExclusive, hl]
        simp [weakTryWrite, hv1, ht]
    · by_cases hl : a = 0
      · have ht : tryLockExclusive a = (true, -1) := by
          simp [tryLockExclusive, hl]
        by_cases hv2 : isValid cached c2 = true
        · simp [weakTryWrite, hv1, ht, hv2]
        · simp [weakTryWrite, hv1, hl, tryLockExclusive, hv2, unlockExclusive]
      · have ht : tryLockExclusive a = (false, a) := by
          simp [tryLockExclusive, hl]
        simp [weakTryWrite, hv1, ht]
  · refine ⟨by simp [weakTryRead, hv1], by simp [weakTryRead, hv1],
      by simp [weakTryWrite, hv1], by simp [weakTryWrite, hv1]⟩

/-- C10: `Strong::drop` bumps the generation count unconditionally before
attempting the exclusive lock, so directly after the drop returns every
weak alias stamped with the pre-drop count is invalid and its `try_read`
and `try_write` return none without touching the lock cell — also in the
contended case (`a` nonzero), where the payload drop itself is
deferred. -/
theorem strong_drop_invalidates {count : Nat} (h0 : 0 < count)
    (h1 : count < u32Lim) (a : Int) :
    isValid count (strongDrop count a).1 = false ∧
    (a ≠ 0 → (strongDrop count a).2.2 = false) ∧
    (∀ b c2, weakTryRead count (strongDrop count a).1 b c2 = (false, b)) ∧
    (∀ b c2, weakTryWrite count (strongDrop count a).1 b c2 = (false, b)) := by
  have hfst : (strongDrop count a).1 = bump count := by
    by_cases ha : a = 0
    · simp [strongDrop, tryLockExclusive, ha]
    · simp [strongDrop, tryLockExclusive, ha]
  have hne := bump_ne_self h0 h1
  have hval : isValid count (strongDrop count a).1 = false := by
    rw [hfst]
    simp [isValid, beq_eq_false_iff_ne]
    exact fun hx => hne hx.symm
  refine ⟨hval, ?_, ?_, ?_⟩
  · intro ha
    simp [strongDrop, tryLockExclusive, ha]
  · intro b c2
    simp [weakTryRead, hval]
  · intro b c2
    simp [weakTryWrite, hval]

/-- Witness for C10 with one shared lock outstanding (cell value 2): the
payload drop is deferred, yet the alias is already invalid. -/
theorem strong_drop_invalidates_witness :
    isValid 1 (strongDrop 1 2).1 = false ∧
    (strongDrop 1 2).2.2 = false ∧
    weakTryRead 1 (strongDrop 1 2).1 0 2 = (false, 0) := by
  have h := @strong_drop_invalidates 1 (by decide) (by decide) 2
  exact ⟨h.1, h.2.1 (by decide), h.2.2.1 0 2⟩

theorem u32Max_add_one : u32Max + 1 = u32Lim := by decide

/-- Every count from 2 up to the maximum is reached by the slot whose
first owner was born at count 1, through repeated recycling and owner
drops. -/
theorem reach_count_states (c : Nat) (h2 : 2 ≤ c) (hle : c ≤ u32Max) :
    OwnerReach ⟨1, true, true⟩ ⟨c, false, false⟩ := by
  revert hle
  induction c, h2 using Nat.le_induction with
  | base =>
      intro _
      exact OwnerReach.tail OwnerReach.refl
        (@OwnerStep.ownerDrop ⟨1, true, true⟩ rfl)
  | succ n hn ih =>
      intro hle1
      have hr := ih (by omega)
      have hs1 : OwnerStep ⟨n, false, false⟩ ⟨n, false, true⟩ :=
        @OwnerStep.realloc ⟨n, false, false⟩ rfl (show n ≠ 0 by omega)
      have hs2 : OwnerStep ⟨n, false, true⟩ ⟨n + 1, false, false⟩ := by
        have hx : OwnerStep ⟨n, false, true⟩ ⟨bump n, false, false⟩ :=
          @OwnerStep.ownerDrop ⟨n, false, true⟩ rfl
        have hlim : n + 1 < u32Lim := by
          have := u32Max_add_one
          omega
        have hb : bump n = n + 1 := by
          unfold bump
          rw [if_neg (by omega), Nat.mod_eq_of_lt hlim]
        rw [hb] at hx
        exact hx
      exact OwnerReach.tail (OwnerReach.tail hr hs1) hs2

/-- C1: evaluation of the source at the failing input. A weak alias
stamped 1 at the slot's first pairing is invalid once that owner is gone,
and stays so while only drops and recycling happen — but the trace may
continue to the wrapped `0` sentinel, and one further `promote` step
(`Weak::share` on the stale alias, which performs no validity check)
lifts the observable count back to 1 through `set_gen` on the fresh
global counter: the stamp-1 alias is valid again with the original owner
long dead, and its `try_read` succeeds. Permanence of invalidation fails
in the source. -/
theorem weak_revival_after_wraparound :
    OwnerReach ⟨1, true, true⟩ ⟨0, false, false⟩ ∧
    isValid 1 0 = false ∧
    OwnerReach ⟨1, true, true⟩ ⟨1, false, false⟩ ∧
    isValid 1 1 = true ∧
    (weakTryRead 1 1 0 1).1 = true := by
  have hmax : OwnerReach ⟨1, true, true⟩ ⟨u32Max, false, false⟩ :=
    reach_count_states u32Max (by decide) (Nat.le_refl u32Max)
  have hs1 : OwnerStep ⟨u32Max, false, false⟩ ⟨u32Max, false, true⟩ :=
    @OwnerStep.realloc ⟨u32Max, false, false⟩ rfl (by decide)
  have hs2 : OwnerStep ⟨u32Max, false, true⟩ ⟨0, false, false⟩ := by
    have hx : OwnerStep ⟨u32Max, false, true⟩ ⟨bump u32Max, false, false⟩ :=
      @OwnerStep.ownerDrop ⟨u32Max, false, true⟩ rfl
    rw [show bump u32Max = 0 from by decide] at hx
    exact hx
  have h0 : OwnerReach ⟨1, true, true⟩ ⟨0, false, false⟩ :=
    OwnerReach.tail (OwnerReach.tail hmax hs1) hs2
  have hs3 : OwnerStep ⟨0, false, false⟩ ⟨1, false, false⟩ :=
    @OwnerStep.promote ⟨0, false, false⟩
  exact ⟨h0, by decide, OwnerReach.tail h0 hs3, by decide, by decide⟩

end Genref
